import Mathlib

/-!
Verification of the merge-and-reconcile engine of `ldapmerge` (package
`merger`, functions `buildCertificateMap` and `Merge`), against the data
model of `internal/models/models.go`.

The Go `map[string][]string` is modelled as an association list with
Go assignment/lookup semantics (`mapSet` / `mapGet`); `Merge` only ever
looks keys up, so iteration order of the Go map is irrelevant.  A Go
`[]string` field that distinguishes nil from a non-nil slice
(`Certificates`) is modelled as `Option (List String)`: `none` is the
nil slice, `some l` a non-nil slice with elements `l`.
-/

namespace Ldapmerge

/-- `models.LDAPServer`: one LDAP endpoint within a domain. -/
structure LDAPServer where
  url : String
  starttls : String
  enabled : String
  bindUsername : String
  bindPassword : String
  certificates : Option (List String)
deriving Repr, DecidableEq

/-- `models.Domain`: a domain configuration with LDAP servers. -/
structure Domain where
  id : String
  domainName : String
  baseDN : String
  alternativeDomainNames : List String
  ldapServers : List LDAPServer
deriving Repr, DecidableEq

/-- `models.CertificateDetail`: certificate subject info. -/
structure CertificateDetail where
  subjectCN : String
deriving Repr, DecidableEq

/-- `models.CertificateJSON`: certificate data from the response. -/
structure CertificateJSON where
  pemEncoded : String
  details : List CertificateDetail
deriving Repr, DecidableEq

/-- `models.ResponseItem`: the item used for URL matching. -/
structure ResponseItem where
  url : String
  starttls : String
  enabled : String
deriving Repr, DecidableEq

/-- `models.CertificateResult`: one result record of the response. -/
structure CertificateResult where
  json : CertificateJSON
  item : ResponseItem
  ansibleLoopVar : String
deriving Repr, DecidableEq

/-- `models.CertificateResponse`: the whole response payload. -/
structure CertificateResponse where
  results : List CertificateResult
deriving Repr, DecidableEq

/-- Go map lookup `m[k]` with its `exists` flag: `none` when the key is
absent, `some v` when present with value `v`. -/
def mapGet (m : List (String × List String)) (k : String) : Option (List String) :=
  match m with
  | [] => none
  | (k₁, v) :: rest => if k₁ = k then some v else mapGet rest k

/-- Go map assignment `m[k] = v`: replaces the value at `k`, or appends
the binding when the key is absent. -/
def mapSet (m : List (String × List String)) (k : String) (v : List String) :
    List (String × List String) :=
  match m with
  | [] => [(k, v)]
  | (k₁, v₁) :: rest => if k₁ = k then (k, v) :: rest else (k₁, v₁) :: mapSet rest k v

/-- The loop body of `buildCertificateMap` (part_004 lines 53-66) for one
`result` record: skip an empty URL, ensure the key exists with `[]`, then
append a non-empty `pemEncoded`. -/
def insertItem (certMap : List (String × List String)) (r : CertificateResult) :
    List (String × List String) :=
  if r.item.url = "" then certMap
  else
    let m₁ := if (mapGet certMap r.item.url).isSome then certMap
              else mapSet certMap r.item.url []
    if r.json.pemEncoded ≠ "" then
      mapSet m₁ r.item.url ((mapGet m₁ r.item.url).getD [] ++ [r.json.pemEncoded])
    else m₁

/-- `Merger.buildCertificateMap` (part_004 lines 50-69): fold the loop
body over `response.Results`, starting from the empty map. -/
def buildCertificateMap (response : CertificateResponse) : List (String × List String) :=
  response.results.foldl insertItem []

/-- The per-server body of `Merge` (part_004 lines 86-98): copy every
field except `Certificates`, then attach `certMap[server.URL]` when the
key exists with a non-empty list. -/
def mergeServer (certMap : List (String × List String)) (server : LDAPServer) : LDAPServer :=
  let base : LDAPServer :=
    { url := server.url
      starttls := server.starttls
      enabled := server.enabled
      bindUsername := server.bindUsername
      bindPassword := server.bindPassword
      certificates := none }
  match mapGet certMap server.url with
  | some certs => if certs.length > 0 then { base with certificates := some certs } else base
  | none => base

/-- The per-domain body of `Merge` (part_004 lines 77-99): copy the four
domain fields and rebuild the server list. -/
def mergeDomain (certMap : List (String × List String)) (domain : Domain) : Domain :=
  { id := domain.id
    domainName := domain.domainName
    baseDN := domain.baseDN
    alternativeDomainNames := domain.alternativeDomainNames
    ldapServers := domain.ldapServers.map (mergeServer certMap) }

/-- `Merger.Merge` (part_004 lines 72-102). -/
def Merge (domains : List Domain) (response : CertificateResponse) : List Domain :=
  let certMap := buildCertificateMap response
  domains.map (mergeDomain certMap)

/-- Specification function: the non-empty `pemEncoded` payloads of the
results whose `item.url` is byte-for-byte equal to `u`, in input order. -/
def pemsOf : List CertificateResult → String → List String
  | [], _ => []
  | r :: l, u =>
      if r.item.url = u ∧ r.json.pemEncoded ≠ "" then r.json.pemEncoded :: pemsOf l u
      else pemsOf l u

/-- Server at position `(i, j)` of a domain list, when both indices are
in range. -/
def serverAt (domains : List Domain) (i j : Nat) : Option LDAPServer :=
  match domains[i]? with
  | some d => d.ldapServers[j]?
  | none => none

/-- The passenger fields of a server: everything except `certificates`. -/
def serverFrame (s : LDAPServer) : String × String × String × String × String :=
  (s.url, s.starttls, s.enabled, s.bindUsername, s.bindPassword)

/-- The passenger fields of a domain: everything except the servers'
`certificates`. -/
def domainFrame (d : Domain) :
    String × String × String × List String × List (String × String × String × String × String) :=
  (d.id, d.domainName, d.baseDN, d.alternativeDomainNames, d.ldapServers.map serverFrame)

/-- Specification function: a domain with every server's `certificates`
cleared and every other field unchanged. -/
def clearCertificates (d : Domain) : Domain :=
  { d with ldapServers := d.ldapServers.map (fun s => { s with certificates := none }) }

/-! ### Sample inputs used by witnesses -/

/-- A result record with the given match URL and PEM payload. -/
def sampleResult (u pem : String) : CertificateResult :=
  ⟨⟨pem, []⟩, ⟨u, "false", "true"⟩, ""⟩

/-- A server with the given URL and certificates. -/
def sampleServer (u : String) (c : Option (List String)) : LDAPServer :=
  ⟨u, "false", "true", "admin", "pw", c⟩

/-- A domain with the given server list. -/
def sampleDomain (servers : List LDAPServer) : Domain :=
  ⟨"example.lab", "example.lab", "DC=example,DC=lab", ["alt.lab"], servers⟩

/-! ### Lemmas about the association-list map -/

theorem mapGet_mapSet_self (m : List (String × List String)) (k : String) (v : List String) :
    mapGet (mapSet m k v) k = some v := by
  induction m with
  | nil => simp [mapSet, mapGet]
  | cons p rest ih =>
      obtain ⟨k₁, v₁⟩ := p
      by_cases h : k₁ = k
      · simp [mapSet, mapGet, h]
      · simp [mapSet, mapGet, h, ih]

theorem mapGet_mapSet_ne (m : List (String × List String)) (k u : String) (v : List String)
    (h : u ≠ k) : mapGet (mapSet m k v) u = mapGet m u := by
  have h' : k ≠ u := Ne.symm h
  induction m with
  | nil => simp [mapSet, mapGet, h']
  | cons p rest ih =>
      obtain ⟨k₁, v₁⟩ := p
      by_cases h₁ : k₁ = k
      · subst h₁
        simp [mapSet, mapGet, h']
      · by_cases h₂ : k₁ = u <;> simp [mapSet, mapGet, h₁, h₂, h, h', ih]

/-! ### Lemmas about `insertItem` -/

theorem insertItem_url_empty (m : List (String × List String)) (r : CertificateResult)
    (h : r.item.url = "") : insertItem m r = m := by
  simp [insertItem, h]

theorem insertItem_get_ne (m : List (String × List String)) (r : CertificateResult) (u : String)
    (h : u ≠ r.item.url) : mapGet (insertItem m r) u = mapGet m u := by
  by_cases h₀ : r.item.url = ""
  · simp [insertItem, h₀]
  · by_cases h₁ : (mapGet m r.item.url).isSome <;>
      by_cases h₂ : r.json.pemEncoded = "" <;>
      simp [insertItem, h₀, h₁, h₂, mapGet_mapSet_ne _ _ _ _ h]

theorem insertItem_get_self (m : List (String × List String)) (r : CertificateResult)
    (h : r.item.url ≠ "") :
    mapGet (insertItem m r) r.item.url =
      some ((mapGet m r.item.url).getD [] ++
        if r.json.pemEncoded = "" then [] else [r.json.pemEncoded]) := by
  by_cases h₂ : r.json.pemEncoded = ""
  · rcases h₁ : mapGet m r.item.url with _ | v <;>
      simp [insertItem, h, h₁, h₂, mapGet_mapSet_self]
  · rcases h₁ : mapGet m r.item.url with _ | v <;>
      simp [insertItem, h, h₁, h₂, mapGet_mapSet_self]

/-! ### Characterization of `buildCertificateMap` -/

theorem foldl_insertItem_get_some (l : List CertificateResult)
    (m : List (String × List String)) (u : String) (v : List String)
    (hu : u ≠ "") (h : mapGet m u = some v) :
    mapGet (List.foldl insertItem m l) u = some (v ++ pemsOf l u) := by
  induction l generalizing m v with
  | nil => simpa [pemsOf] using h
  | cons r l ih =>
      by_cases h₁ : r.item.url = u
      · have h₀ : r.item.url ≠ "" := by rw [h₁]; exact hu
        have hget := insertItem_get_self m r h₀
        rw [h₁, h] at hget
        by_cases hp : r.json.pemEncoded = ""
        · have hstep := ih (insertItem m r) (v ++ []) (by simpa [hp] using hget)
          simpa [pemsOf, h₁, hp] using hstep
        · have hstep := ih (insertItem m r) (v ++ [r.json.pemEncoded])
            (by simpa [hp] using hget)
          simpa [pemsOf, h₁, hp, List.append_assoc] using hstep
      · have hne := insertItem_get_ne m r u (fun he => h₁ he.symm)
        have hstep := ih (insertItem m r) v (by rw [hne]; exact h)
        simpa [pemsOf, h₁] using hstep

theorem foldl_insertItem_get_none (l : List CertificateResult)
    (m : List (String × List String)) (u : String)
    (hu : u ≠ "") (h : mapGet m u = none) :
    mapGet (List.foldl insertItem m l) u =
      if ∃ r ∈ l, r.item.url = u then some (pemsOf l u) else none := by
  induction l generalizing m with
  | nil => simpa using h
  | cons r l ih =>
      by_cases h₁ : r.item.url = u
      · have h₀ : r.item.url ≠ "" := by rw [h₁]; exact hu
        have hget := insertItem_get_self m r h₀
        rw [h₁, h] at hget
        have hc : ∃ x ∈ r :: l, x.item.url = u := ⟨r, List.mem_cons_self r l, h₁⟩
        rw [List.foldl_cons, if_pos hc]
        by_cases hp : r.json.pemEncoded = ""
        · have hstep := foldl_insertItem_get_some l (insertItem m r) u [] hu
            (by simpa [hp] using hget)
          simpa [pemsOf, h₁, hp] using hstep
        · have hstep := foldl_insertItem_get_some l (insertItem m r) u [r.json.pemEncoded] hu
            (by simpa [hp] using hget)
          simpa [pemsOf, h₁, hp] using hstep
      · have hne := insertItem_get_ne m r u (fun he => h₁ he.symm)
        have hiff : (∃ x ∈ r :: l, x.item.url = u) ↔ (∃ x ∈ l, x.item.url = u) := by
          constructor
          · rintro ⟨x, hx, hxu⟩
            rcases List.mem_cons.mp hx with rfl | hx
            · exact absurd hxu h₁
            · exact ⟨x, hx, hxu⟩
          · rintro ⟨x, hx, hxu⟩
            exact ⟨x, List.mem_cons_of_mem _ hx, hxu⟩
        have hstep := ih (insertItem m r) (by rw [hne]; exact h)
        rw [List.foldl_cons, hstep]
        simp [pemsOf, h₁, hiff]

/-- Master characterization: for a non-empty URL `u`, the certificate map
has key `u` exactly when some result record carries `u`, and its value is
the ordered list of that URL's non-empty PEM payloads. -/
theorem buildCertificateMap_get (resp : CertificateResponse) (u : String) (hu : u ≠ "") :
    mapGet (buildCertificateMap resp) u =
      if ∃ r ∈ resp.results, r.item.url = u then some (pemsOf resp.results u) else none :=
  foldl_insertItem_get_none resp.results [] u hu rfl

/-- The empty URL is never a key of the certificate map. -/
theorem buildCertificateMap_get_empty (resp : CertificateResponse) :
    mapGet (buildCertificateMap resp) "" = none := by
  suffices hgen : ∀ (l : List CertificateResult) (m : List (String × List String)),
      mapGet m "" = none → mapGet (List.foldl insertItem m l) "" = none from
    hgen resp.results [] rfl
  intro l
  induction l with
  | nil => intro m h; simpa using h
  | cons r l ih =>
      intro m h
      by_cases h₀ : r.item.url = ""
      · rw [List.foldl_cons, insertItem_url_empty m r h₀]
        exact ih m h
      · rw [List.foldl_cons]
        refine ih (insertItem m r) ?_
        rw [insertItem_get_ne m r "" (fun he => h₀ he.symm)]
        exact h

/-! ### Lemmas about `mergeServer`, `mergeDomain`, `Merge` -/

theorem pemsOf_eq_nil_of_no_match (l : List CertificateResult) (u : String)
    (h : ¬ ∃ r ∈ l, r.item.url = u) : pemsOf l u = [] := by
  induction l with
  | nil => rfl
  | cons r l ih =>
      have h₁ : r.item.url ≠ u := fun he => h ⟨r, List.mem_cons_self r l, he⟩
      have h₂ : ¬ ∃ x ∈ l, x.item.url = u := by
        rintro ⟨x, hx, hxu⟩
        exact h ⟨x, List.mem_cons_of_mem _ hx, hxu⟩
      simp [pemsOf, h₁, ih h₂]

theorem mergeServer_url (cm : List (String × List String)) (s : LDAPServer) :
    (mergeServer cm s).url = s.url := by
  rcases h : mapGet cm s.url with _ | certs
  · simp [mergeServer, h]
  · by_cases hc : certs.length > 0 <;> simp [mergeServer, h, hc]

theorem serverFrame_mergeServer (cm : List (String × List String)) (s : LDAPServer) :
    serverFrame (mergeServer cm s) = serverFrame s := by
  rcases h : mapGet cm s.url with _ | certs
  · simp [mergeServer, serverFrame, h]
  · by_cases hc : certs.length > 0 <;> simp [mergeServer, serverFrame, h, hc]

/-- The attachment decision of `Merge` at one server, fully characterized:
certificates are `some (pemsOf resp.results S.url)` exactly when the URL
is non-empty and that list is non-empty, and `none` otherwise. -/
theorem mergeServer_certs_char (resp : CertificateResponse) (S : LDAPServer) :
    (mergeServer (buildCertificateMap resp) S).certificates =
      if S.url ≠ "" ∧ pemsOf resp.results S.url ≠ [] then some (pemsOf resp.results S.url)
      else none := by
  by_cases hu : S.url = ""
  · have hm : mapGet (buildCertificateMap resp) "" = none :=
      buildCertificateMap_get_empty resp
    simp [mergeServer, hm, hu]
  · by_cases hex : ∃ r ∈ resp.results, r.item.url = S.url
    · have hm := buildCertificateMap_get resp S.url hu
      rw [if_pos hex] at hm
      rcases hp : pemsOf resp.results S.url with _ | ⟨a, rest⟩
      · rw [hp] at hm
        simp [mergeServer, hm, hp, hu]
      · rw [hp] at hm
        simp [mergeServer, hm, hp, hu]
    · have hm := buildCertificateMap_get resp S.url hu
      rw [if_neg hex] at hm
      have hp := pemsOf_eq_nil_of_no_match resp.results S.url hex
      simp [mergeServer, hm, hp, hu]

theorem mergeServer_idem (cm : List (String × List String)) (s : LDAPServer) :
    mergeServer cm (mergeServer cm s) = mergeServer cm s := by
  rcases h : mapGet cm s.url with _ | certs
  · simp [mergeServer, h]
  · by_cases hc : certs.length > 0 <;> simp [mergeServer, h, hc]

theorem mergeDomain_idem (cm : List (String × List String)) (d : Domain) :
    mergeDomain cm (mergeDomain cm d) = mergeDomain cm d := by
  simp [mergeDomain, List.map_map, Function.comp_def, mergeServer_idem]

/-! ### Claims -/

/-- C1: certificate payloads attach to an output server exactly by
byte-for-byte equality of the server's `url` with the items' match URL:
every output server's `certificates` is precisely the ordered non-empty
PEM payloads of the results whose `item.url` equals `S.url` (when the URL
is non-empty and that list is non-empty), and `none` otherwise.  No
normalization is applied anywhere: `pemsOf` selects by `=` on strings, so
URLs differing in case or trailing characters never contribute. -/
theorem merge_attaches_iff_exact_url_match (domains : List Domain)
    (resp : CertificateResponse) (D : Domain) (S : LDAPServer)
    (hD : D ∈ Merge domains resp) (hS : S ∈ D.ldapServers) :
    S.certificates =
      if S.url ≠ "" ∧ pemsOf resp.results S.url ≠ [] then some (pemsOf resp.results S.url)
      else none := by
  rcases List.mem_map.mp (show D ∈ domains.map (mergeDomain (buildCertificateMap resp))
    from hD) with ⟨d, _, rfl⟩
  rcases List.mem_map.mp (show S ∈ d.ldapServers.map (mergeServer (buildCertificateMap resp))
    from hS) with ⟨s₀, _, rfl⟩
  rw [mergeServer_url (buildCertificateMap resp) s₀]
  exact mergeServer_certs_char resp s₀

/-- C1 witness: one domain, one server `ldaps://a:636`, one matching
result with PEM `CERT1`; the merged server carries `some ["CERT1"]`. -/
theorem merge_attaches_iff_exact_url_match_witness :
    (sampleServer "ldaps://a:636" (some ["CERT1"])).certificates = some ["CERT1"] :=
  (merge_attaches_iff_exact_url_match
    [sampleDomain [sampleServer "ldaps://a:636" none]]
    ⟨[sampleResult "ldaps://a:636" "CERT1"]⟩
    (sampleDomain [sampleServer "ldaps://a:636" (some ["CERT1"])])
    (sampleServer "ldaps://a:636" (some ["CERT1"]))
    (by decide) (by decide)).trans (by decide)

/-- C2: a server whose URL has no entry at all in the certificate dataset
comes out of `Merge` with `certificates = none`, even when the input
server already carried certificates — pre-existing certificates are
discarded, never preserved. -/
theorem merge_no_match_clears_certificates (domains : List Domain)
    (resp : CertificateResponse) (i j : Nat) (S : LDAPServer) (cs : List String)
    (hS : serverAt domains i j = some S)
    (_hc : S.certificates = some cs)
    (hno : ∀ r ∈ resp.results, r.item.url ≠ S.url) :
    ∃ T, serverAt (Merge domains resp) i j = some T ∧ T.certificates = none := by
  rcases hdi : domains[i]? with _ | d
  · simp only [serverAt, hdi] at hS
    cases hS
  · simp only [serverAt, hdi] at hS
    refine ⟨mergeServer (buildCertificateMap resp) S, ?_, ?_⟩
    · rw [serverAt, show Merge domains resp = domains.map (mergeDomain (buildCertificateMap resp))
        from rfl, List.getElem?_map _ domains i, hdi]
      show (mergeDomain (buildCertificateMap resp) d).ldapServers[j]? = _
      rw [show (mergeDomain (buildCertificateMap resp) d).ldapServers
        = d.ldapServers.map (mergeServer (buildCertificateMap resp)) from rfl,
        List.getElem?_map _ d.ldapServers j, hS]
      rfl
    · rw [mergeServer_certs_char resp S]
      have hnil : pemsOf resp.results S.url = [] := by
        refine pemsOf_eq_nil_of_no_match resp.results S.url ?_
        rintro ⟨r, hr, hru⟩
        exact hno r hr hru
      rw [if_neg (by rintro ⟨_, hne⟩; exact hne hnil)]

/-- C2 witness: a server `u1` that already has `["c1"]`, merged against a
dataset whose only entry is for `u2`, comes out with no certificates. -/
theorem merge_no_match_clears_certificates_witness :
    ∃ T, serverAt (Merge [sampleDomain [sampleServer "u1" (some ["c1"])]]
        ⟨[sampleResult "u2" "X"]⟩) 0 0 = some T ∧ T.certificates = none :=
  merge_no_match_clears_certificates
    [sampleDomain [sampleServer "u1" (some ["c1"])]] ⟨[sampleResult "u2" "X"]⟩ 0 0
    (sampleServer "u1" (some ["c1"])) ["c1"] (by decide) (by decide) (by decide)

/-- C3: `Merge` is idempotent under re-merging with the same response:
merging the result again yields the result unchanged, field for field. -/
theorem merge_idempotent (domains : List Domain) (resp : CertificateResponse) :
    Merge (Merge domains resp) resp = Merge domains resp := by
  simp [Merge, List.map_map, Function.comp_def, mergeDomain_idem]

/-- C4 counterexample: a response whose only item has `matchURL = "u1"`
and empty `pemEncoded` leaves the key `"u1"` PRESENT in the map, bound to
the empty list — not absent as the claim states. -/
theorem buildCertificateMap_empty_pem_key_present :
    mapGet (buildCertificateMap ⟨[sampleResult "u1" ""]⟩) "u1" = some [] ∧
    mapGet (buildCertificateMap ⟨[sampleResult "u1" ""]⟩) "u1" ≠ none := by
  refine ⟨by decide, by decide⟩

/-- C4 amended: the value lists of the certificate map contain exactly the
non-empty PEM payloads (in input order), but a non-empty match URL is a
key of the map whenever ANY item carries it — items with empty
`pemEncoded` still create the key, bound to `[]` when no non-empty payload
exists for it.  (`Merge` treats such a key like an absent one, since
attachment requires a non-empty list.) -/
theorem buildCertificateMap_key_iff_any_item (resp : CertificateResponse) (u : String)
    (hu : u ≠ "") :
    mapGet (buildCertificateMap resp) u =
      if ∃ r ∈ resp.results, r.item.url = u then some (pemsOf resp.results u) else none :=
  buildCertificateMap_get resp u hu

/-- C4 witness: a response with an empty-PEM item and a non-empty item for
`u1` yields the key `u1` bound to just the non-empty payload. -/
theorem buildCertificateMap_key_iff_any_item_witness :
    mapGet (buildCertificateMap ⟨[sampleResult "u1" "", sampleResult "u1" "A"]⟩) "u1" =
      some ["A"] :=
  (buildCertificateMap_key_iff_any_item ⟨[sampleResult "u1" "", sampleResult "u1" "A"]⟩ "u1"
    (by decide)).trans (by decide)

/-- C5: the output of `Merge` has the same number of domains as the input;
at every position the domain has the same number of servers as the
corresponding input domain; and at every position sits the SAME domain as
in the input — identified by its entire frame of non-certificate fields
(`id`, `domainName`, `baseDN`, `alternativeDomainNames`, and the ordered
list of each server's `url`, `starttls`, `enabled`, `bindUsername`,
`bindPassword`) — so domain order and, within each domain, server order
are preserved, not merely the counts. -/
theorem merge_preserves_structure (domains : List Domain) (resp : CertificateResponse) :
    (Merge domains resp).length = domains.length ∧
    (∀ i : Nat, Option.map (fun d : Domain => d.ldapServers.length) (Merge domains resp)[i]? =
        Option.map (fun d : Domain => d.ldapServers.length) domains[i]?) ∧
    (∀ i : Nat, Option.map domainFrame (Merge domains resp)[i]? =
        Option.map domainFrame domains[i]?) := by
  refine ⟨by simp [Merge], fun i => ?_, fun i => ?_⟩
  · rcases h : domains[i]? with _ | d <;>
      simp [Merge, List.getElem?_map, h, mergeDomain]
  · rcases h : domains[i]? with _ | d <;>
      simp [Merge, List.getElem?_map, h, domainFrame, mergeDomain, List.map_map,
        Function.comp_def, serverFrame_mergeServer]

/-- If every result record matching `u` has an empty PEM payload, the
collected payload list for `u` is empty. -/
theorem pemsOf_eq_nil_of_all_empty_pem (l : List CertificateResult) (u : String)
    (h : ∀ r ∈ l, r.item.url = u → r.json.pemEncoded = "") : pemsOf l u = [] := by
  induction l with
  | nil => rfl
  | cons r l ih =>
      have h₂ : ∀ x ∈ l, x.item.url = u → x.json.pemEncoded = "" :=
        fun x hx => h x (List.mem_cons_of_mem _ hx)
      by_cases h₁ : r.item.url = u
      · have hp := h r (List.mem_cons_self r l) h₁
        simp [pemsOf, hp, ih h₂]
      · simp [pemsOf, h₁, ih h₂]

/-- C6: payloads for one URL accumulate in first-seen-to-last-seen input
order: whenever a non-empty-URL server has any matching non-empty
payloads, the attached list is exactly `pemsOf resp.results S.url`, which
lists the payloads in the order the items appear in the response.  The
witness instantiates two items `"A"` then `"B"` and obtains
`["A", "B"]`. -/
theorem merge_accumulates_in_input_order (resp : CertificateResponse) (S : LDAPServer)
    (hu : S.url ≠ "") (hne : pemsOf resp.results S.url ≠ []) :
    (mergeServer (buildCertificateMap resp) S).certificates =
      some (pemsOf resp.results S.url) := by
  rw [mergeServer_certs_char resp S, if_pos ⟨hu, hne⟩]

/-- C6 witness: two items for `u1` with payloads `"A"` then `"B"` attach
`["A", "B"]`, never `["B", "A"]`. -/
theorem merge_accumulates_in_input_order_witness :
    (mergeServer (buildCertificateMap ⟨[sampleResult "u1" "A", sampleResult "u1" "B"]⟩)
      (sampleServer "u1" none)).certificates = some ["A", "B"] :=
  (merge_accumulates_in_input_order ⟨[sampleResult "u1" "A", sampleResult "u1" "B"]⟩
    (sampleServer "u1" none) (by decide) (by decide)).trans (by decide)

/-- C7: (1) a result item with an empty match URL is skipped entirely —
deleting it from the response leaves the whole output of `Merge`
unchanged, so it affects no domain or server and raises no error; and
(2) an item with an empty `pemEncoded` contributes nothing — a server
matched only by empty-payload items ends with no certificates, never with
a list containing the empty string. -/
theorem merge_skips_empty_url_and_empty_pem :
    (∀ (domains : List Domain) (l₁ l₂ : List CertificateResult) (r : CertificateResult),
      r.item.url = "" →
      Merge domains ⟨l₁ ++ r :: l₂⟩ = Merge domains ⟨l₁ ++ l₂⟩) ∧
    (∀ (resp : CertificateResponse) (S : LDAPServer),
      (∀ r ∈ resp.results, r.item.url = S.url → r.json.pemEncoded = "") →
      (mergeServer (buildCertificateMap resp) S).certificates = none) := by
  constructor
  · intro domains l₁ l₂ r hr
    have hbm : buildCertificateMap ⟨l₁ ++ r :: l₂⟩ = buildCertificateMap ⟨l₁ ++ l₂⟩ := by
      show List.foldl insertItem [] (l₁ ++ r :: l₂) = List.foldl insertItem [] (l₁ ++ l₂)
      rw [List.foldl_append, List.foldl_append, List.foldl_cons,
        insertItem_url_empty _ r hr]
    simp [Merge, hbm]
  · intro resp S hall
    by_cases hu : S.url = ""
    · rw [mergeServer_certs_char resp S, if_neg (by rintro ⟨h₁, _⟩; exact h₁ hu)]
    · have hnil := pemsOf_eq_nil_of_all_empty_pem resp.results S.url hall
      rw [mergeServer_certs_char resp S, if_neg (by rintro ⟨_, hne⟩; exact hne hnil)]

/-- C7 witness: deleting an empty-URL item leaves the merge output
unchanged, and a server matched only by an empty-payload item gets no
certificates. -/
theorem merge_skips_empty_url_and_empty_pem_witness :
    Merge [sampleDomain [sampleServer "u1" none]] ⟨[sampleResult "" "X"]⟩ =
        Merge [sampleDomain [sampleServer "u1" none]] ⟨[]⟩ ∧
    (mergeServer (buildCertificateMap ⟨[sampleResult "u1" ""]⟩)
        (sampleServer "u1" none)).certificates = none :=
  ⟨merge_skips_empty_url_and_empty_pem.1 [sampleDomain [sampleServer "u1" none]]
      [] [] (sampleResult "" "X") rfl,
    merge_skips_empty_url_and_empty_pem.2 ⟨[sampleResult "u1" ""]⟩
      (sampleServer "u1" none) (by decide)⟩

/-- C8: `Merge` is a total function (it is defined for every input, as a
Lean function, with no partiality or error path); an empty domain list
yields the empty output list, and an empty certificate dataset yields the
input domains with every server's `certificates` cleared and all other
fields unchanged. -/
theorem merge_total_on_empty_inputs :
    (∀ resp, Merge [] resp = []) ∧
    (∀ domains, Merge domains ⟨[]⟩ = domains.map clearCertificates) := by
  exact ⟨fun resp => rfl, fun domains => rfl⟩

/-- C9: every field of every domain and server other than the server's
`certificates` is copied verbatim by `Merge`, at every position: mapping
the passenger-field projection over the output gives exactly the same
list as mapping it over the input. -/
theorem merge_copies_passenger_fields_verbatim (domains : List Domain)
    (resp : CertificateResponse) :
    (Merge domains resp).map domainFrame = domains.map domainFrame := by
  show (domains.map (mergeDomain (buildCertificateMap resp))).map domainFrame = _
  rw [List.map_map]
  refine List.map_congr_left fun d _ => ?_
  simp [domainFrame, mergeDomain, Function.comp_def, List.map_map, serverFrame_mergeServer]

/-- C10: no output server of `Merge` ever carries a present-but-empty
certificate list: its `certificates` is either `none` (the nil slice) or
`some` of a non-empty list — even when the certificate map binds the
server's URL to the empty list. -/
theorem merge_never_present_empty_certificates (domains : List Domain)
    (resp : CertificateResponse) (D : Domain) (S : LDAPServer)
    (hD : D ∈ Merge domains resp) (hS : S ∈ D.ldapServers) :
    S.certificates = none ∨ ∃ c cs, S.certificates = some (c :: cs) := by
  rcases List.mem_map.mp (show D ∈ domains.map (mergeDomain (buildCertificateMap resp))
    from hD) with ⟨d, _, rfl⟩
  rcases List.mem_map.mp (show S ∈ d.ldapServers.map (mergeServer (buildCertificateMap resp))
    from hS) with ⟨s₀, _, rfl⟩
  rw [mergeServer_certs_char resp s₀]
  by_cases hcond : s₀.url ≠ "" ∧ pemsOf resp.results s₀.url ≠ []
  · rcases hp : pemsOf resp.results s₀.url with _ | ⟨c, cs⟩
    · exact absurd hp hcond.2
    · exact Or.inr ⟨c, cs, by rw [if_pos ⟨hcond.1, List.cons_ne_nil c cs⟩]⟩
  · exact Or.inl (by rw [if_neg hcond])

/-- C10 witness: the map binds `u1` to the empty list (its only item has
an empty payload); the merged server for `u1` still has `none`, not
`some []`. -/
theorem merge_never_present_empty_certificates_witness :
    (sampleServer "u1" none).certificates = none ∨
      ∃ c cs, (sampleServer "u1" none).certificates = some (c :: cs) :=
  merge_never_present_empty_certificates [sampleDomain [sampleServer "u1" none]]
    ⟨[sampleResult "u1" ""]⟩ (sampleDomain [sampleServer "u1" none])
    (sampleServer "u1" none) (by decide) (by decide)

end Ldapmerge
